import Mathlib

/-
  Verification of the Gutenberg style-engine processor
  (src/packages/style-engine/class-wp-style-engine-processor.php).

  The processor works on PHP ordered associative arrays.  We embed them as
  Lean lists of entries in insertion order; `$arr[$k] = $v` replaces the
  value in place when the key exists and appends otherwise, `unset`
  removes the entry, and `foreach` iterates a snapshot taken when the
  loop starts (mutation inside the loop body does not change what the
  loop visits).
-/

namespace StyleEngine

/-- A declaration list: CSS property name / value pairs in insertion
order, as held by a `WP_Style_Engine_CSS_Declarations` object (a PHP
string-keyed array, so keys are unique). -/
abbrev Declarations := List (String × String)

/-- Modelled from the spec: a `WP_Style_Engine_CSS_Declarations` write
`declarations[property] = value` (spec 3: keys are unique within a set;
later writes to the same property overwrite earlier ones; insertion
order preserved).  PHP array semantics: replace in place when the key
exists, append otherwise. -/
def setProp (d : Declarations) (k v : String) : Declarations :=
  if d.any (fun p => p.1 == k) then
    d.map (fun p => if p.1 == k then (k, v) else p)
  else d ++ [(k, v)]

/-- Modelled from the spec: `WP_Style_Engine_CSS_Declarations::add_declarations`
(spec 4.1 merge: for every property in `other`, overwrite this set's
value — added declarations win over existing ones on conflict). -/
def add_declarations (d extra : Declarations) : Declarations :=
  extra.foldl (fun acc p => setProp acc p.1 p.2) d

/-- A `WP_Style_Engine_CSS_Rule`: one selector string and its
declarations. -/
structure CSSRule where
  selector : String
  declarations : Declarations
deriving DecidableEq, Repr

/-- Insert an entry into a key-sorted declaration list (helper for
`ksort`). -/
def insertByKey (p : String × String) : Declarations → Declarations
  | [] => [p]
  | q :: rest => if p.1 ≤ q.1 then p :: q :: rest else q :: insertByKey p rest

/-- PHP `ksort`: sort the declaration entries by key, ascending. -/
def ksort (d : Declarations) : Declarations := d.foldr insertByKey []

/-- The canonical encoding `combine_rules_selectors` compares:
`wp_json_encode( ksort( declarations ) )`.  JSON encoding of a
string-keyed string-valued array is injective, so two rules have the
same encoding exactly when their key-sorted declaration lists are equal;
we therefore use the key-sorted list itself as the encoding. -/
def canon (d : Declarations) : Declarations := ksort d

/-- PHP `isset( $this->css_rules[ $selector ] )` for the working set
keyed by selector. -/
def hasSelector (rules : List CSSRule) (s : String) : Bool :=
  rules.any (fun r => r.selector == s)

/-- PHP `$this->css_rules[ $selector ]` lookup. -/
def lookupRule (rules : List CSSRule) (s : String) : Option CSSRule :=
  rules.find? (fun r => r.selector == s)

/-- `WP_Style_Engine_Processor::add_rules`, acting on the working set:
for each incoming rule, if its selector is present merge the incoming
declarations into the existing entry in place, otherwise append the
rule under its selector. -/
def add_rules (st : List CSSRule) (new : List CSSRule) : List CSSRule :=
  new.foldl
    (fun acc r =>
      if hasSelector acc r.selector then
        acc.map (fun q =>
          if q.selector == r.selector then
            CSSRule.mk q.selector (add_declarations q.declarations r.declarations)
          else q)
      else acc ++ [r])
    st

/-- The loop state of `combine_rules_selectors`: the
`$selectors_json` array (selector → canonical encoding) and the
`$this->css_rules` array (keyed by selector). -/
structure CombineState where
  sj : List (String × Declarations)
  cr : List CSSRule
deriving Repr

/-- `array_keys( $selectors_json, $json, true )`: the keys of the
entries currently mapped to the encoding `j`, in array order. -/
def dupKeys (sj : List (String × Declarations)) (j : Declarations) : List String :=
  (sj.filter (fun p => p.2 == j)).map Prod.fst

/-- `unset( $selectors_json[ $key ] )` for every key in `dups`. -/
def removeKeys (sj : List (String × Declarations)) (dups : List String) :
    List (String × Declarations) :=
  sj.filter (fun p => !(dups.contains p.1))

/-- `unset( $this->css_rules[ $key ] )` for every key in `dups`. -/
def removeRules (cr : List CSSRule) (dups : List String) : List CSSRule :=
  cr.filter (fun r => !(dups.contains r.selector))

/-- `$this->css_rules[ $combined ] = new WP_Style_Engine_CSS_Rule( $combined, $decls )`:
replace in place when the key exists, append otherwise. -/
def setRule (cr : List CSSRule) (combined : String) (decls : Declarations) :
    List CSSRule :=
  if cr.any (fun r => r.selector == combined) then
    cr.map (fun r => if r.selector == combined then CSSRule.mk combined decls else r)
  else cr ++ [CSSRule.mk combined decls]

/-- One iteration of the `foreach ( $selectors_json as $selector => $json )`
body of `combine_rules_selectors`:
`array_keys( $selectors_json, $json, true )` collects, in array order,
the keys currently mapped to the same encoding; if there are at least
two, the declarations of `$this->css_rules[ $selector ]` are taken, all
duplicate keys are unset from both arrays, and
`$this->css_rules[ implode( ',', $duplicates ) ]` is assigned a new
rule with the combined selector (replacing in place if that key already
exists, appending otherwise). -/
def combineStep (st : CombineState) (entry : String × Declarations) : CombineState :=
  let dups := dupKeys st.sj entry.2
  if dups.length ≤ 1 then st
  else
    let decls := ((lookupRule st.cr entry.1).map CSSRule.declarations).getD []
    CombineState.mk (removeKeys st.sj dups)
      (setRule (removeRules st.cr dups) (String.intercalate "," dups) decls)

/-- `WP_Style_Engine_Processor::combine_rules_selectors`: build the
selector → canonical-encoding array, then run the combining loop over a
snapshot of it (PHP `foreach` by value iterates the array as it was
when the loop started). -/
def combine_rules_selectors (rules : List CSSRule) : List CSSRule :=
  let snapshot := rules.map (fun r => (r.selector, canon r.declarations))
  (snapshot.foldl combineStep (CombineState.mk snapshot rules)).cr

/-- A `WP_Style_Engine_CSS_Rules_Store`.  Modelled from the spec (the
store class is not part of the sources): a named collection of rules;
`get_all_rules` returns them in insertion order of first-seen selector
(spec 4.3). -/
structure CSSRulesStore where
  name : String
  rules : List CSSRule
deriving DecidableEq, Repr

/-- The processor state: `$stores` (keyed by store name) and
`$css_rules` (keyed by selector), both in PHP array insertion order. -/
structure Processor where
  stores : List CSSRulesStore
  css_rules : List CSSRule
deriving DecidableEq, Repr

/-- `WP_Style_Engine_Processor::add_store`:
`$this->stores[ $store->get_name() ] = $store` — replace in place when
the name is already registered, append otherwise. -/
def add_store (p : Processor) (s : CSSRulesStore) : Processor :=
  Processor.mk
    (if p.stores.any (fun t => t.name == s.name) then
      p.stores.map (fun t => if t.name == s.name then s else t)
    else p.stores ++ [s])
    p.css_rules

/-- Modelled from the spec:
`WP_Style_Engine_CSS_Declarations::get_declarations_string` (the
declarations class is not part of the sources).  Spec 4.1: render
`property: value;` pairs; pretty inserts a newline plus indentation
before each declaration, non-pretty concatenates them with no
separating whitespace beyond the trailing `;`.  The exact non-pretty
shape `property: value;` is pinned by the spec-8 end-to-end expectation
`.wp-1,.wp-2\x7bmargin: 0;\x7d`. -/
def declarationsOutput (d : Declarations) (pretty : Bool) : String :=
  String.join (d.map (fun p =>
    if pretty then "\n\t" ++ p.1 ++ ": " ++ p.2 ++ ";"
    else p.1 ++ ": " ++ p.2 ++ ";"))

/-- Modelled from the spec: `WP_Style_Engine_CSS_Rule::get_css` (the
rule class is not part of the sources).  Spec 4.2: if the declaration
set is empty return the empty string (the selector is never emitted
without at least one declaration); otherwise render
`selector \x7b declarations \x7d`, single-line without extraneous
whitespace when not pretty. -/
def get_rule_css (r : CSSRule) (pretty : Bool) : String :=
  if r.declarations.isEmpty then ""
  else if pretty then
    r.selector ++ " \x7b" ++ declarationsOutput r.declarations true ++ "\n\x7d"
  else
    r.selector ++ "\x7b" ++ declarationsOutput r.declarations false ++ "\x7d"

/-- The options read by `get_css`.  In the source, `optimize` defaults
to `true` and `prettify` to the `SCRIPT_DEBUG` runtime flag; both are
explicit here. -/
structure CssOptions where
  optimize : Bool
  prettify : Bool
deriving DecidableEq, Repr

/-- The serialization loop of `get_css`: concatenate
`$rule->get_css( $prettify )` for every rule of the working set, in
order, appending `"\n"` after each iteration when `prettify` is set. -/
def renderRules (rules : List CSSRule) (pretty : Bool) : String :=
  String.join (rules.map (fun r =>
    get_rule_css r pretty ++ if pretty then "\n" else ""))

/-- `WP_Style_Engine_Processor::get_css`: pull every rule from every
registered store (registration order) through `add_rules`, run
`combine_rules_selectors` when `optimize` is set, then serialize the
working set.  The method mutates `$this->css_rules`, so it returns the
output string together with the updated processor. -/
def get_css (p : Processor) (o : CssOptions) : String × Processor :=
  let pulled := p.stores.foldl (fun acc s => add_rules acc s.rules) p.css_rules
  let rules := if o.optimize then combine_rules_selectors pulled else pulled
  (renderRules rules o.prettify, Processor.mk p.stores rules)

/-- Lookup of a selector's canonical encoding in a `$selectors_json`
array, used to state invariants about the combining loop. -/
def sval (sj : List (String × Declarations)) (k : String) : Option Declarations :=
  (sj.find? (fun p => p.1 == k)).map Prod.snd

/-- A rule is `consistent` with a `$selectors_json` array when the
array still records, under the rule's selector, exactly the canonical
encoding of the rule's current declarations.  Rules of the initial
working set are consistent; combined rules assigned under a colliding
key need not be. -/
def consistent (sj : List (String × Declarations)) (r : CSSRule) : Prop :=
  sval sj r.selector = some (canon r.declarations)

/-- The invariant maintained by the combining loop of
`combine_rules_selectors`: keys stay unique in both arrays, every
`$selectors_json` key still keys a working-set rule, and every rule
that is not consistent with `$selectors_json` (i.e. every combined
rule) carries a canonical encoding that is fresh: distinct from every
encoding still recorded in `$selectors_json` and from every other
inconsistent rule's encoding. -/
structure CombineInv (st : CombineState) : Prop where
  crNodup : (st.cr.map CSSRule.selector).Nodup
  sjNodup : (st.sj.map Prod.fst).Nodup
  sjSub : ∀ k, k ∈ st.sj.map Prod.fst → k ∈ st.cr.map CSSRule.selector
  bFresh : ∀ r ∈ st.cr, ¬ consistent st.sj r → ∀ e ∈ st.sj, canon r.declarations ≠ e.2
  bDistinct : ∀ r1 ∈ st.cr, ∀ r2 ∈ st.cr, r1.selector ≠ r2.selector →
    ¬ consistent st.sj r1 → ¬ consistent st.sj r2 →
    canon r1.declarations ≠ canon r2.declarations

/-- C1: with the working set holding exactly `.a`/`color:red`,
`.b`/`color:red`, `.c`/`color:blue` in that first-seen order, `get_css`
with `optimize` emits exactly one rule whose selector is `.a,.b`
(members joined in first-seen order, `.a` before `.b`) carrying
`color:red`, and a separate rule for `.c` carrying `color:blue`. -/
theorem c1_combine_correctness :
    ∀ pretty : Bool,
      (get_css (Processor.mk []
          [CSSRule.mk ".a" [("color", "red")], CSSRule.mk ".b" [("color", "red")],
            CSSRule.mk ".c" [("color", "blue")]])
        (CssOptions.mk true pretty)).2.css_rules =
        [CSSRule.mk ".c" [("color", "blue")], CSSRule.mk ".a,.b" [("color", "red")]] ∧
      ((get_css (Processor.mk []
          [CSSRule.mk ".a" [("color", "red")], CSSRule.mk ".b" [("color", "red")],
            CSSRule.mk ".c" [("color", "blue")]])
        (CssOptions.mk true pretty)).2.css_rules.filter
          (fun r => r.selector == ".a,.b")) =
        [CSSRule.mk ".a,.b" [("color", "red")]] ∧
      ((get_css (Processor.mk []
          [CSSRule.mk ".a" [("color", "red")], CSSRule.mk ".b" [("color", "red")],
            CSSRule.mk ".c" [("color", "blue")]])
        (CssOptions.mk true pretty)).2.css_rules.filter
          (fun r => r.selector == ".c")) =
        [CSSRule.mk ".c" [("color", "blue")]] := by
  intro pretty
  exact ⟨rfl, rfl, rfl⟩

/-- C2: a processor with store `block-supports` holding
`.wp-1/margin:0` and store `global-styles` holding `.wp-2/margin:0`,
attached in that order, answers `get_css` with `optimize` on and
`prettify` off with the single combined rule
`.wp-1,.wp-2\x7bmargin: 0;\x7d`: the store rules are pulled in
registration order through `add_rules` and then combined. -/
theorem c2_end_to_end :
    (get_css (add_store
        (add_store (Processor.mk [] [])
          (CSSRulesStore.mk "block-supports" [CSSRule.mk ".wp-1" [("margin", "0")]]))
        (CSSRulesStore.mk "global-styles" [CSSRule.mk ".wp-2" [("margin", "0")]]))
      (CssOptions.mk true false)).1 = ".wp-1,.wp-2\x7bmargin: 0;\x7d" ∧
    (get_css (add_store
        (add_store (Processor.mk [] [])
          (CSSRulesStore.mk "block-supports" [CSSRule.mk ".wp-1" [("margin", "0")]]))
        (CSSRulesStore.mk "global-styles" [CSSRule.mk ".wp-2" [("margin", "0")]]))
      (CssOptions.mk true false)).2.css_rules =
      [CSSRule.mk ".wp-1,.wp-2" [("margin", "0")]] := by
  exact ⟨rfl, rfl⟩

/-- C3 counterexample: with a store attached, `get_css` with
`optimize` is not idempotent.  A store holding `.a/margin:0` and
`.b/margin:0` yields `.a,.b\x7bmargin: 0;\x7d` on the first call, but
the second call re-pulls the store rules (whose selectors are no
longer present after combining) and combines them with the previous
combined rule into `.a,.b,.a,.b\x7bmargin: 0;\x7d`. -/
theorem c3_counterexample :
    (get_css (Processor.mk
        [CSSRulesStore.mk "s"
          [CSSRule.mk ".a" [("margin", "0")], CSSRule.mk ".b" [("margin", "0")]]] [])
      (CssOptions.mk true false)).1 = ".a,.b\x7bmargin: 0;\x7d" ∧
    (get_css (get_css (Processor.mk
        [CSSRulesStore.mk "s"
          [CSSRule.mk ".a" [("margin", "0")], CSSRule.mk ".b" [("margin", "0")]]] [])
      (CssOptions.mk true false)).2 (CssOptions.mk true false)).1 =
      ".a,.b,.a,.b\x7bmargin: 0;\x7d" ∧
    (".a,.b\x7bmargin: 0;\x7d" : String) ≠ ".a,.b,.a,.b\x7bmargin: 0;\x7d" := by
  refine ⟨rfl, rfl, by decide⟩

/-- C4 counterexample: for the working set `.a/color:red`,
`.c/color:blue`, `.b/color:red`, the combine pass does not insert the
combined rule at the position the members occupied (the claim predicts
`.a,.b` first, where `.a` stood): it appends it after `.c`. -/
theorem c4_counterexample :
    (get_css (Processor.mk []
        [CSSRule.mk ".a" [("color", "red")], CSSRule.mk ".c" [("color", "blue")],
          CSSRule.mk ".b" [("color", "red")]])
      (CssOptions.mk true false)).2.css_rules =
      [CSSRule.mk ".c" [("color", "blue")], CSSRule.mk ".a,.b" [("color", "red")]] ∧
    ((get_css (Processor.mk []
        [CSSRule.mk ".a" [("color", "red")], CSSRule.mk ".c" [("color", "blue")],
          CSSRule.mk ".b" [("color", "red")]])
      (CssOptions.mk true false)).2.css_rules).head? ≠
      some (CSSRule.mk ".a,.b" [("color", "red")]) := by
  refine ⟨rfl, by decide⟩

/-- C6 counterexample: a rule with an empty declaration set does not
render a block, but under `prettify` the serialization loop appends a
newline after every rule, empty ones included: the output for a
working set holding only the empty rule `.a` is `"\n"`, not `""`. -/
theorem c6_counterexample :
    (get_css (Processor.mk [] [CSSRule.mk ".a" []]) (CssOptions.mk false true)).1 = "\n" ∧
    ("\n" : String) ≠ "" := by
  refine ⟨rfl, by decide⟩

/-- C7: `prettify` does not interfere with content.  For every
processor state and every `optimize` setting, the runs with `prettify`
on and off leave the identical working set (same rules, same selector
grouping, same declarations), and each output is exactly the
formatting-only rendering of that common rule list. -/
theorem c7_prettify_noninterference (p : Processor) (opt : Bool) :
    (get_css p (CssOptions.mk opt true)).2 = (get_css p (CssOptions.mk opt false)).2 ∧
    (get_css p (CssOptions.mk opt true)).1 =
      renderRules (get_css p (CssOptions.mk opt false)).2.css_rules true ∧
    (get_css p (CssOptions.mk opt false)).1 =
      renderRules (get_css p (CssOptions.mk opt false)).2.css_rules false := by
  exact ⟨rfl, rfl, rfl⟩

/-- C8: with `optimize` off, the working set `.a/color:red`,
`.b/color:red`, `.c/color:blue` passes through unchanged — three
separate rule blocks with their original selectors and declarations,
in first-seen order, no combining. -/
theorem c8_pass_through :
    ∀ pretty : Bool,
      (get_css (Processor.mk []
          [CSSRule.mk ".a" [("color", "red")], CSSRule.mk ".b" [("color", "red")],
            CSSRule.mk ".c" [("color", "blue")]])
        (CssOptions.mk false pretty)).2.css_rules =
        [CSSRule.mk ".a" [("color", "red")], CSSRule.mk ".b" [("color", "red")],
          CSSRule.mk ".c" [("color", "blue")]] ∧
      (get_css (Processor.mk []
          [CSSRule.mk ".a" [("color", "red")], CSSRule.mk ".b" [("color", "red")],
            CSSRule.mk ".c" [("color", "blue")]])
        (CssOptions.mk false false)).1 =
        ".a\x7bcolor: red;\x7d.b\x7bcolor: red;\x7d.c\x7bcolor: blue;\x7d" := by
  intro pretty
  exact ⟨rfl, rfl⟩

/-- C10: when the working set already holds a rule whose selector
equals the comma-join of a combine group (`.a,.b` with `font-size`,
next to `.a` and `.b` sharing `color:red`), the combined rule is
stored under that same key, replacing the pre-existing rule in place
and silently discarding its declarations from the output. -/
theorem c10_collision_overwrite :
    (get_css (Processor.mk []
        [CSSRule.mk ".a,.b" [("font-size", "12px")], CSSRule.mk ".a" [("color", "red")],
          CSSRule.mk ".b" [("color", "red")]])
      (CssOptions.mk true false)).2.css_rules =
      [CSSRule.mk ".a,.b" [("color", "red")]] ∧
    (get_css (Processor.mk []
        [CSSRule.mk ".a,.b" [("font-size", "12px")], CSSRule.mk ".a" [("color", "red")],
          CSSRule.mk ".b" [("color", "red")]])
      (CssOptions.mk true false)).1 = ".a,.b\x7bcolor: red;\x7d" := by
  exact ⟨rfl, rfl⟩

theorem add_rules_cons (st : List CSSRule) (r : CSSRule) (rest : List CSSRule) :
    add_rules st (r :: rest) =
      add_rules
        (if hasSelector st r.selector then
          st.map (fun q =>
            if q.selector == r.selector then
              CSSRule.mk q.selector (add_declarations q.declarations r.declarations)
            else q)
        else st ++ [r]) rest := rfl

theorem update_preserves_selectors (st : List CSSRule) (r : CSSRule) :
    (st.map (fun q =>
        if q.selector == r.selector then
          CSSRule.mk q.selector (add_declarations q.declarations r.declarations)
        else q)).map CSSRule.selector = st.map CSSRule.selector := by
  induction st with
  | nil => rfl
  | cons q t ih =>
      simp only [List.map_cons, ih]
      cases hq : (q.selector == r.selector) <;> simp [hq]

theorem add_rules_nodup (st new : List CSSRule) (h : (st.map CSSRule.selector).Nodup) :
    ((add_rules st new).map CSSRule.selector).Nodup := by
  induction new generalizing st with
  | nil => exact h
  | cons r rest ih =>
      rw [add_rules_cons]
      apply ih
      cases hs : hasSelector st r.selector with
      | true =>
          rw [if_pos rfl]
          rw [update_preserves_selectors]
          exact h
      | false =>
          rw [if_neg (by simp)]
          have hall : ∀ q ∈ st, ¬ (q.selector == r.selector) = true := by
            simp only [hasSelector] at hs
            exact fun q hq => by
              intro hqe
              have hany : st.any (fun x => x.selector == r.selector) = true :=
                List.any_eq_true.mpr ⟨q, hq, hqe⟩
              rw [hany] at hs
              simp at hs
          rw [List.map_append, List.nodup_append]
          refine ⟨h, List.nodup_singleton _, ?_⟩
          intro a ha hb
          simp only [List.map_cons, List.map_nil, List.mem_singleton] at hb
          obtain ⟨q, hq, he⟩ := List.mem_map.mp ha
          exact hall q hq (by simp [he, hb])

theorem find?_update (st : List CSSRule) (r q : CSSRule)
    (hfind : st.find? (fun x => x.selector == r.selector) = some q) :
    (st.map (fun x =>
        if x.selector == r.selector then
          CSSRule.mk x.selector (add_declarations x.declarations r.declarations)
        else x)).find? (fun x => x.selector == r.selector) =
      some (CSSRule.mk q.selector (add_declarations q.declarations r.declarations)) := by
  induction st with
  | nil => simp at hfind
  | cons x t ih =>
      cases hx : (x.selector == r.selector) with
      | true =>
          simp only [List.find?, hx] at hfind
          injection hfind with hq
          subst hq
          simp only [List.map_cons, if_pos hx, List.find?]
          simp [hx]
      | false =>
          simp only [List.find?, hx] at hfind
          simpa [List.find?, hx] using ih hfind

theorem add_rules_merge (st : List CSSRule) (r q : CSSRule)
    (hfind : lookupRule st r.selector = some q) :
    (add_rules st [r]).map CSSRule.selector = st.map CSSRule.selector ∧
    lookupRule (add_rules st [r]) r.selector =
      some (CSSRule.mk q.selector (add_declarations q.declarations r.declarations)) := by
  have hq := List.mem_of_find?_eq_some hfind
  have hqs := List.find?_some hfind
  have hsel : hasSelector st r.selector = true :=
    List.any_eq_true.mpr ⟨q, hq, hqs⟩
  have hstep : add_rules st [r] = st.map (fun x =>
      if x.selector == r.selector then
        CSSRule.mk x.selector (add_declarations x.declarations r.declarations)
      else x) := by
    rw [add_rules_cons, if_pos hsel]
    rfl
  rw [hstep]
  exact ⟨update_preserves_selectors st r, find?_update st r q hfind⟩

theorem add_rules_fresh (st : List CSSRule) (r : CSSRule)
    (hfind : lookupRule st r.selector = none) :
    add_rules st [r] = st ++ [r] := by
  have hall := List.find?_eq_none.mp hfind
  have hsel : hasSelector st r.selector = false := by
    cases hs : hasSelector st r.selector with
    | true =>
        obtain ⟨x, hx, hxe⟩ := List.any_eq_true.mp hs
        exact absurd hxe (hall x hx)
    | false => rfl
  rw [add_rules_cons, if_neg (by simp [hsel])]
  rfl

theorem append_prop_find (d : Declarations) (k v : String)
    (h : d.any (fun p => p.1 == k) = false) :
    (d ++ [(k, v)]).find? (fun p => p.1 == k) = some (k, v) := by
  induction d with
  | nil => simp
  | cons p t ih =>
      have hp : (p.1 == k) = false := by
        cases hp : (p.1 == k) with
        | true => simp [List.any_cons, hp] at h
        | false => rfl
      have ht : t.any (fun p => p.1 == k) = false := by
        have := h
        simp only [List.any_cons, hp, Bool.false_or] at this
        exact this
      rw [List.cons_append]
      simp only [List.find?, hp]
      exact ih ht

theorem overwrite_prop_find (d : Declarations) (k v : String)
    (h : d.any (fun p => p.1 == k) = true) :
    (d.map (fun p => if p.1 == k then (k, v) else p)).find? (fun p => p.1 == k) =
      some (k, v) := by
  induction d with
  | nil => simp at h
  | cons p t ih =>
      cases hp : (p.1 == k) with
      | true =>
          simp only [List.map_cons, if_pos hp, List.find?]
          simp
      | false =>
          have ht : t.any (fun p => p.1 == k) = true := by
            simpa [List.any_cons, hp] using h
          simpa [List.find?, hp] using ih ht

theorem add_declarations_single (d : Declarations) (k v : String) :
    (add_declarations d [(k, v)]).find? (fun p => p.1 == k) = some (k, v) := by
  have hstep : add_declarations d [(k, v)] = setProp d k v := rfl
  rw [hstep]
  unfold setProp
  cases hany : d.any (fun p => p.1 == k) with
  | true =>
      rw [if_pos rfl]
      exact overwrite_prop_find d k v hany
  | false =>
      rw [if_neg (by simp)]
      exact append_prop_find d k v hany

/-- C5: `add_rules` maintains the one-rule-per-selector invariant with
last-write-wins merging: selector uniqueness is preserved by every
call; a rule whose selector already exists is merged into the existing
entry in place (selector order unchanged, declarations merged with the
incoming ones winning, as witnessed by the merged entry and by
`add_declarations` recording the newest value of a written property);
a rule with a fresh selector is appended, preserving first-seen order;
and adding `.a/color:red` then `.a/color:blue` leaves exactly
`.a/color:blue`. -/
theorem c5_add_rules_invariant :
    (∀ st new : List CSSRule, (st.map CSSRule.selector).Nodup →
      ((add_rules st new).map CSSRule.selector).Nodup) ∧
    (∀ (st : List CSSRule) (r q : CSSRule), lookupRule st r.selector = some q →
      (add_rules st [r]).map CSSRule.selector = st.map CSSRule.selector ∧
      lookupRule (add_rules st [r]) r.selector =
        some (CSSRule.mk q.selector (add_declarations q.declarations r.declarations))) ∧
    (∀ (st : List CSSRule) (r : CSSRule), lookupRule st r.selector = none →
      add_rules st [r] = st ++ [r]) ∧
    (∀ (d : Declarations) (k v : String),
      (add_declarations d [(k, v)]).find? (fun p => p.1 == k) = some (k, v)) ∧
    add_rules [] [CSSRule.mk ".a" [("color", "red")], CSSRule.mk ".a" [("color", "blue")]] =
      [CSSRule.mk ".a" [("color", "blue")]] :=
  ⟨add_rules_nodup, add_rules_merge, add_rules_fresh, add_declarations_single, rfl⟩

/-- Witness for C5 at concrete inputs. -/
theorem c5_witness :
    ((add_rules [CSSRule.mk ".a" [("color", "red")]]
        [CSSRule.mk ".b" [("color", "blue")]]).map CSSRule.selector).Nodup ∧
    ((add_rules [CSSRule.mk ".a" [("color", "red")]]
        [CSSRule.mk ".a" [("color", "blue")]]).map CSSRule.selector =
      [CSSRule.mk ".a" [("color", "red")]].map CSSRule.selector ∧
      lookupRule (add_rules [CSSRule.mk ".a" [("color", "red")]]
        [CSSRule.mk ".a" [("color", "blue")]]) ".a" =
        some (CSSRule.mk ".a"
          (add_declarations [("color", "red")] [("color", "blue")]))) ∧
    add_rules [CSSRule.mk ".b" [("color", "blue")]] [CSSRule.mk ".a" [("color", "red")]] =
      [CSSRule.mk ".b" [("color", "blue")]] ++ [CSSRule.mk ".a" [("color", "red")]] :=
  ⟨c5_add_rules_invariant.1 [CSSRule.mk ".a" [("color", "red")]]
      [CSSRule.mk ".b" [("color", "blue")]] (by decide),
    c5_add_rules_invariant.2.1 [CSSRule.mk ".a" [("color", "red")]]
      (CSSRule.mk ".a" [("color", "blue")]) (CSSRule.mk ".a" [("color", "red")]) (by decide),
    c5_add_rules_invariant.2.2.1 [CSSRule.mk ".b" [("color", "blue")]]
      (CSSRule.mk ".a" [("color", "red")]) (by decide)⟩

theorem store_update_names (l : List CSSRulesStore) (s : CSSRulesStore) :
    (l.map (fun t => if t.name == s.name then s else t)).map CSSRulesStore.name =
      l.map CSSRulesStore.name := by
  induction l with
  | nil => rfl
  | cons t r ih =>
      simp only [List.map_cons, ih]
      cases ht : (t.name == s.name) with
      | true =>
          have : t.name = s.name := by simpa using ht
          simp [this]
      | false => simp

theorem map_id_of_no_match (r : List CSSRulesStore) (s : CSSRulesStore)
    (h : ∀ u ∈ r, (u.name == s.name) = false) :
    r.map (fun t => if t.name == s.name then s else t) = r := by
  induction r with
  | nil => rfl
  | cons u t ih =>
      have hu0 := h u (List.mem_cons_self u t)
      have ih0 := ih (fun v hv => h v (List.mem_cons_of_mem u hv))
      have hne : ¬ ((u.name == s.name) = true) := by simp [hu0]
      simp only [List.map_cons, if_neg hne, ih0]

theorem store_filter_replaced (l : List CSSRulesStore) (s : CSSRulesStore)
    (hn : (l.map CSSRulesStore.name).Nodup)
    (hany : l.any (fun t => t.name == s.name) = true) :
    (l.map (fun t => if t.name == s.name then s else t)).filter
      (fun t => t.name == s.name) = [s] := by
  induction l with
  | nil => simp at hany
  | cons t r ih =>
      have hn2 := hn
      simp only [List.map_cons, List.nodup_cons] at hn2
      cases ht : (t.name == s.name) with
      | true =>
          have hts : t.name = s.name := by simpa using ht
          have hrest : ∀ u ∈ r, (u.name == s.name) = false := by
            intro u hu
            cases hu' : (u.name == s.name) with
            | true =>
                have hus : u.name = s.name := by simpa using hu'
                exact absurd (List.mem_map.mpr ⟨u, hu, by rw [hus, hts]⟩) hn2.1
            | false => rfl
          have hmap := map_id_of_no_match r s hrest
          have hfil : r.filter (fun t => t.name == s.name) = [] := by
            rw [List.filter_eq_nil_iff]
            intro u hu
            simp [hrest u hu]
          have hss : (s.name == s.name) = true := by simp
          simp only [List.map_cons, if_pos ht, hmap, List.filter, hss, hfil]
      | false =>
          have hany2 : r.any (fun t => t.name == s.name) = true := by
            simpa [List.any_cons, ht] using hany
          simp only [List.map_cons, ht]
          simp only [List.filter, ht]
          have := ih hn2.2 hany2
          simpa [ht] using this

theorem store_filter_appended (l : List CSSRulesStore) (s : CSSRulesStore)
    (hany : l.any (fun t => t.name == s.name) = false) :
    (l ++ [s]).filter (fun t => t.name == s.name) = [s] := by
  induction l with
  | nil => simp
  | cons t r ih =>
      have ht : (t.name == s.name) = false := by
        cases ht : (t.name == s.name) with
        | true => simp [List.any_cons, ht] at hany
        | false => rfl
      have hr : r.any (fun t => t.name == s.name) = false := by
        simpa [List.any_cons, ht] using hany
      simp only [List.cons_append, List.filter, ht]
      exact ih hr

/-- C9: `add_store` keeps one store per name with the last
registration winning: starting from a store map with unique names, the
names stay unique after registering `s`, the map holds exactly the
newly registered store under `s`'s name, and every store under another
name is one of the previously registered stores. -/
theorem c9_add_store (p : Processor) (s : CSSRulesStore)
    (h : (p.stores.map CSSRulesStore.name).Nodup) :
    ((add_store p s).stores.map CSSRulesStore.name).Nodup ∧
    (add_store p s).stores.filter (fun t => t.name == s.name) = [s] ∧
    ∀ t ∈ (add_store p s).stores, t.name ≠ s.name → t ∈ p.stores := by
  unfold add_store
  cases hany : p.stores.any (fun t => t.name == s.name) with
  | true =>
      rw [if_pos rfl]
      refine ⟨?_, ?_, ?_⟩
      · rw [store_update_names]
        exact h
      · exact store_filter_replaced p.stores s h hany
      · intro t htm htn
        obtain ⟨u, hu, he⟩ := List.mem_map.mp htm
        cases hu' : (u.name == s.name) with
        | true =>
            exfalso
            apply htn
            rw [← he]
            simp [hu']
        | false =>
            rw [← he]
            simpa [hu'] using hu
  | false =>
      rw [if_neg (by simp)]
      refine ⟨?_, ?_, ?_⟩
      · rw [List.map_append, List.nodup_append]
        refine ⟨h, List.nodup_singleton _, ?_⟩
        intro a ha hb
        simp only [List.map_cons, List.map_nil, List.mem_singleton] at hb
        obtain ⟨u, hu, he⟩ := List.mem_map.mp ha
        have hbeq : (u.name == s.name) = true := by simp [he, hb]
        have : p.stores.any (fun t => t.name == s.name) = true :=
          List.any_eq_true.mpr ⟨u, hu, hbeq⟩
        rw [this] at hany
        simp at hany
      · exact store_filter_appended p.stores s hany
      · intro t htm htn
        rcases List.mem_append.mp htm with h1 | h1
        · exact h1
        · simp only [List.mem_singleton] at h1
          subst h1
          exact absurd rfl htn

/-- Witness for C9 at a concrete input: re-registering the name `a`
replaces the earlier store. -/
theorem c9_witness :
    (((add_store (Processor.mk [CSSRulesStore.mk "a" []] [])
        (CSSRulesStore.mk "a" [CSSRule.mk ".x" [("k", "v")]])).stores.map
          CSSRulesStore.name).Nodup) ∧
    (add_store (Processor.mk [CSSRulesStore.mk "a" []] [])
        (CSSRulesStore.mk "a" [CSSRule.mk ".x" [("k", "v")]])).stores.filter
      (fun t => t.name == "a") = [CSSRulesStore.mk "a" [CSSRule.mk ".x" [("k", "v")]]] ∧
    ∀ t ∈ (add_store (Processor.mk [CSSRulesStore.mk "a" []] [])
        (CSSRulesStore.mk "a" [CSSRule.mk ".x" [("k", "v")]])).stores,
      t.name ≠ "a" → t ∈ [CSSRulesStore.mk "a" []] :=
  c9_add_store (Processor.mk [CSSRulesStore.mk "a" []] [])
    (CSSRulesStore.mk "a" [CSSRule.mk ".x" [("k", "v")]]) (by decide)

theorem stringJoin_append (l1 l2 : List String) :
    String.join (l1 ++ l2) = String.join l1 ++ String.join l2 := by
  rw [String.join_eq, String.join_eq, String.join_eq]
  apply congrArg String.mk
  simp [List.map_append, List.flatten_append]

theorem stringJoin_cons (a : String) (l : List String) :
    String.join (a :: l) = a ++ String.join l := by
  rw [String.join_eq, String.join_eq]
  apply congrArg String.mk
  simp

/-- C6 amended: a rule whose declaration set is empty contributes no
`selector \x7b ... \x7d` block to the serialized output (its rendered
block is the empty string), but when `prettify` is true the
serialization loop appends a newline after every rule of the working
set — empty rules included — so an empty rule contributes exactly a
newline; with `prettify` false it contributes nothing. -/
theorem c6_empty_rule_serialization (pre post : List CSSRule) (r : CSSRule)
    (hr : r.declarations = []) :
    (∀ pretty : Bool, get_rule_css r pretty = "") ∧
    renderRules (pre ++ r :: post) true =
      renderRules pre true ++ "\n" ++ renderRules post true ∧
    renderRules (pre ++ r :: post) false =
      renderRules pre false ++ renderRules post false := by
  have hcss : ∀ pretty : Bool, get_rule_css r pretty = "" := by
    intro pretty
    simp [get_rule_css, hr]
  refine ⟨hcss, ?_, ?_⟩
  · unfold renderRules
    rw [List.map_append, stringJoin_append, List.map_cons, stringJoin_cons, hcss]
    rw [show (("" : String) ++ if true then "\n" else "") = "\n" by rfl]
    rw [← String.append_assoc]
  · unfold renderRules
    rw [List.map_append, stringJoin_append, List.map_cons, stringJoin_cons, hcss]
    rw [show (("" : String) ++ if false then "\n" else "") = "" by rfl]
    rw [String.empty_append]

/-- Witness for C6 amended at a concrete input. -/
theorem c6_empty_rule_serialization_witness :
    (∀ pretty : Bool, get_rule_css (CSSRule.mk ".a" []) pretty = "") ∧
    renderRules ([CSSRule.mk ".x" [("color", "red")]] ++ CSSRule.mk ".a" [] :: []) true =
      renderRules [CSSRule.mk ".x" [("color", "red")]] true ++ "\n" ++ renderRules [] true ∧
    renderRules ([CSSRule.mk ".x" [("color", "red")]] ++ CSSRule.mk ".a" [] :: []) false =
      renderRules [CSSRule.mk ".x" [("color", "red")]] false ++ renderRules [] false :=
  c6_empty_rule_serialization [CSSRule.mk ".x" [("color", "red")]] []
    (CSSRule.mk ".a" []) rfl

/-- C4 amended: for a combine group of selectors sharing an identical
canonical declaration encoding, the pass joins the group's members
with commas in first-seen insertion order, creates one rule with that
combined selector and the shared declarations, and removes every
original member from the working set — but the combined rule is
appended at the end of the working set (or overwrites, in place, an
existing rule keyed by the combined selector string), not inserted at
the position the original members occupied.  Shown here for a group
`s1`, `s2` interleaved with an unrelated rule `s3` that keeps its
earlier position while the combined rule lands after it. -/
theorem c4_combine_group (s1 s2 s3 : String) (d1 d2 d3 : Declarations)
    (h12 : canon d1 = canon d2) (h13 : canon d1 ≠ canon d3)
    (hs12 : s1 ≠ s2) (hs13 : s1 ≠ s3) (hs23 : s2 ≠ s3)
    (hj : String.intercalate "," [s1, s2] ≠ s3) :
    combine_rules_selectors
      [CSSRule.mk s1 d1, CSSRule.mk s3 d3, CSSRule.mk s2 d2] =
      [CSSRule.mk s3 d3, CSSRule.mk (String.intercalate "," [s1, s2]) d1] := by
  have h21 : canon d2 = canon d1 := h12.symm
  have h31 : canon d3 ≠ canon d1 := fun h => h13 h.symm
  have h32 : canon d3 ≠ canon d2 := fun h => h13 (h12.trans h.symm)
  have hj2 : s3 ≠ String.intercalate "," [s1, s2] := Ne.symm hj
  have b31 : (canon d3 == canon d1) = false := by simp [h31]
  have b21 : (canon d2 == canon d1) = true := by simp [h21]
  have b32 : (canon d3 == canon d2) = false := by simp [h32]
  have t31 : (s3 == s1) = false := by simp [Ne.symm hs13]
  have t21 : (s2 == s1) = false := by simp [Ne.symm hs12]
  have t32 : (s3 == s2) = false := by simp [Ne.symm hs23]
  have tj3 : (s3 == String.intercalate "," [s1, s2]) = false := by simp [hj2]
  simp [combine_rules_selectors, combineStep, dupKeys, removeKeys, removeRules,
    setRule, lookupRule, b31, b21, b32,
    t31, t21, t32, tj3, hs12, hs13, hs23, Ne.symm hs12, Ne.symm hs13, Ne.symm hs23,
    hj, hj2, List.filter, List.find?, List.contains, List.elem]

/-- Witness for C4 amended at a concrete input. -/
theorem c4_combine_group_witness :
    combine_rules_selectors
      [CSSRule.mk ".a" [("color", "red")], CSSRule.mk ".c" [("color", "blue")],
        CSSRule.mk ".b" [("color", "red")]] =
      [CSSRule.mk ".c" [("color", "blue")],
        CSSRule.mk (String.intercalate "," [".a", ".b"]) [("color", "red")]] :=
  c4_combine_group ".a" ".b" ".c" [("color", "red")] [("color", "red")]
    [("color", "blue")] (by decide) (by decide) (by decide) (by decide)
    (by decide) (by decide)


theorem two_le_length_of_two_mem {α : Type} (l : List α) (a b : α)
    (ha : a ∈ l) (hb : b ∈ l) (h : a ≠ b) : 2 ≤ l.length := by
  rcases l with _ | ⟨x, _ | ⟨y, t⟩⟩
  · simp at ha
  · simp at ha hb
    subst ha
    subst hb
    exact absurd rfl h
  · simp [Nat.succ_le_succ, Nat.le_add_left]

theorem filter_snd_nodup_le_one (l : List (String × Declarations)) (v : Declarations)
    (h : (l.map Prod.snd).Nodup) : (l.filter (fun p => p.2 == v)).length ≤ 1 := by
  induction l with
  | nil => simp
  | cons p t ih =>
      simp only [List.map_cons, List.nodup_cons] at h
      cases hp : (p.2 == v) with
      | true =>
          have hpv : p.2 = v := by simpa using hp
          have hnil : t.filter (fun p => p.2 == v) = [] := by
            rw [List.filter_eq_nil_iff]
            intro q hq hqv
            have hq2 : q.2 = p.2 := by
              have hqv2 : q.2 = v := by simpa using hqv
              rw [hqv2, hpv]
            exact h.1 (List.mem_map.mpr ⟨q, hq, hq2⟩)
          simp [List.filter, hp, hnil]
      | false =>
          simp only [List.filter, hp]
          exact ih h.2

theorem mem_removeKeys (sj : List (String × Declarations)) (dups : List String)
    (p : String × Declarations) :
    p ∈ removeKeys sj dups ↔ p ∈ sj ∧ p.1 ∉ dups := by
  simp [removeKeys, List.mem_filter]

theorem mem_removeRules (cr : List CSSRule) (dups : List String) (r : CSSRule) :
    r ∈ removeRules cr dups ↔ r ∈ cr ∧ r.selector ∉ dups := by
  simp [removeRules, List.mem_filter]

theorem sval_of_mem (sj : List (String × Declarations)) (k : String) (v : Declarations)
    (hnd : (sj.map Prod.fst).Nodup) (hm : (k, v) ∈ sj) : sval sj k = some v := by
  induction sj with
  | nil => simp at hm
  | cons p t ih =>
      simp only [List.map_cons, List.nodup_cons] at hnd
      rcases List.mem_cons.mp hm with h | h
      · rw [← h]
        simp [sval, List.find?]
      · have hk : (p.1 == k) = false := by
          cases hb : (p.1 == k) with
          | true =>
              have hpk : p.1 = k := by simpa using hb
              exact absurd (List.mem_map.mpr ⟨(k, v), h, hpk.symm⟩) hnd.1
          | false => rfl
        simp only [sval, List.find?, hk]
        exact ih hnd.2 h



theorem sval_removeKeys (sj : List (String × Declarations)) (dups : List String)
    (k : String) (hk : k ∉ dups) :
    sval (removeKeys sj dups) k = sval sj k := by
  induction sj with
  | nil => rfl
  | cons p t ih =>
      by_cases hp : p.1 = k
      · have hnot : (!(dups.contains p.1)) = true := by
          rw [hp]
          simp [hk]
        have hbk : (p.1 == k) = true := by simpa using hp
        unfold removeKeys
        simp only [List.filter]
        rw [hnot]
        simp [sval, List.find?, hbk, removeKeys]
      · have hbk : (p.1 == k) = false := by simpa using hp
        have ih2 := ih
        simp only [sval, removeKeys] at ih2
        cases hc : (!(dups.contains p.1)) with
        | true =>
            unfold removeKeys
            simp only [List.filter]
            rw [hc]
            simp only [sval, List.find?, hbk]
            exact ih2
        | false =>
            unfold removeKeys
            simp only [List.filter]
            rw [hc]
            simp only [sval, List.find?, hbk]
            exact ih2

theorem sval_mem (sj : List (String × Declarations)) (k : String) (v : Declarations)
    (h : sval sj k = some v) : (k, v) ∈ sj := by
  unfold sval at h
  cases hf : sj.find? (fun p => p.1 == k) with
  | none => rw [hf] at h; simp at h
  | some q =>
      rw [hf] at h
      simp at h
      have hq1 : q.1 = k := by simpa using List.find?_some hf
      have hmem := List.mem_of_find?_eq_some hf
      rw [show (k, v) = q by rw [← hq1, ← h]]
      exact hmem


theorem nodup_keys_eq (sj : List (String × Declarations))
    (hnd : (sj.map Prod.fst).Nodup) (p q : String × Declarations)
    (hp : p ∈ sj) (hq : q ∈ sj) (h : p.1 = q.1) : p = q := by
  induction sj with
  | nil => simp at hp
  | cons a t ih =>
      simp only [List.map_cons, List.nodup_cons] at hnd
      rcases List.mem_cons.mp hp with h1 | h1 <;> rcases List.mem_cons.mp hq with h2 | h2
      · rw [h1, h2]
      · exfalso
        apply hnd.1
        have ha : a.1 = q.1 := by rw [← h1]; exact h
        exact List.mem_map.mpr ⟨q, h2, ha.symm⟩
      · exfalso
        apply hnd.1
        have ha : a.1 = p.1 := by rw [← h2]; exact h.symm
        exact List.mem_map.mpr ⟨p, h1, ha.symm⟩
      · exact ih hnd.2 h1 h2

theorem dupKeys_of_mem (sj : List (String × Declarations)) (j : Declarations)
    (p : String × Declarations) (hp : p ∈ sj) (h2 : p.2 = j) : p.1 ∈ dupKeys sj j := by
  unfold dupKeys
  exact List.mem_map.mpr ⟨p, List.mem_filter.mpr ⟨hp, by simp [h2]⟩, rfl⟩

theorem exists_of_mem_dupKeys (sj : List (String × Declarations)) (j : Declarations)
    (k : String) (h : k ∈ dupKeys sj j) : ∃ p, p ∈ sj ∧ p.1 = k ∧ p.2 = j := by
  unfold dupKeys at h
  obtain ⟨p, hp, he⟩ := List.mem_map.mp h
  have hf := List.mem_filter.mp hp
  exact ⟨p, hf.1, he, by simpa using hf.2⟩

theorem removeKeys_dupKeys_no_j (sj : List (String × Declarations)) (j : Declarations) :
    ∀ p ∈ removeKeys sj (dupKeys sj j), p.2 ≠ j := by
  intro p hp h2
  exact ((mem_removeKeys sj (dupKeys sj j) p).mp hp).2 (dupKeys_of_mem sj j p ((mem_removeKeys sj (dupKeys sj j) p).mp hp).1 h2)

theorem combineStep_small (st : CombineState) (e : String × Declarations)
    (h : (dupKeys st.sj e.2).length ≤ 1) : combineStep st e = st := by
  simp only [combineStep]
  rw [if_pos h]

theorem combineStep_big (st : CombineState) (e : String × Declarations)
    (h : ¬ (dupKeys st.sj e.2).length ≤ 1) :
    combineStep st e = CombineState.mk (removeKeys st.sj (dupKeys st.sj e.2))
      (setRule (removeRules st.cr (dupKeys st.sj e.2))
        (String.intercalate "," (dupKeys st.sj e.2))
        (((lookupRule st.cr e.1).map CSSRule.declarations).getD [])) := by
  simp only [combineStep]
  rw [if_neg h]

theorem combineStep_sj_sublist (st : CombineState) (e : String × Declarations) :
    (combineStep st e).sj.Sublist st.sj := by
  by_cases h : (dupKeys st.sj e.2).length ≤ 1
  · rw [combineStep_small st e h]
  · rw [combineStep_big st e h]
    exact List.filter_sublist _

theorem foldl_sj_sublist (todo : List (String × Declarations)) (st : CombineState) :
    ((todo.foldl combineStep st).sj).Sublist st.sj := by
  induction todo generalizing st with
  | nil => exact List.Sublist.refl _
  | cons e rest ih => exact (ih (combineStep st e)).trans (combineStep_sj_sublist st e)

theorem setRule_map_selector (cr : List CSSRule) (c : String) (d : Declarations) :
    (cr.map (fun r => if r.selector == c then CSSRule.mk c d else r)).map
      CSSRule.selector = cr.map CSSRule.selector := by
  induction cr with
  | nil => rfl
  | cons r t ih =>
      simp only [List.map_cons, ih]
      cases hr : (r.selector == c) with
      | true =>
          have : r.selector = c := by simpa using hr
          simp [this]
      | false => simp

theorem setRule_selectors_replace (cr : List CSSRule) (c : String) (d : Declarations)
    (hany : cr.any (fun r => r.selector == c) = true) :
    (setRule cr c d).map CSSRule.selector = cr.map CSSRule.selector := by
  unfold setRule
  rw [if_pos hany]
  exact setRule_map_selector cr c d

theorem setRule_selectors_append (cr : List CSSRule) (c : String) (d : Declarations)
    (hany : cr.any (fun r => r.selector == c) = false) :
    (setRule cr c d).map CSSRule.selector = cr.map CSSRule.selector ++ [c] := by
  unfold setRule
  have hneg : ¬ (cr.any (fun r => r.selector == c) = true) := by simp [hany]
  rw [if_neg hneg]
  simp

theorem setRule_selectors_sup (cr : List CSSRule) (c : String) (d : Declarations)
    (k : String) (h : k ∈ cr.map CSSRule.selector) :
    k ∈ (setRule cr c d).map CSSRule.selector := by
  cases hany : cr.any (fun r => r.selector == c) with
  | true =>
      rw [setRule_selectors_replace cr c d hany]
      exact h
  | false =>
      rw [setRule_selectors_append cr c d hany]
      exact List.mem_append.mpr (Or.inl h)

theorem setRule_nodup (cr : List CSSRule) (c : String) (d : Declarations)
    (h : (cr.map CSSRule.selector).Nodup) :
    ((setRule cr c d).map CSSRule.selector).Nodup := by
  cases hany : cr.any (fun r => r.selector == c) with
  | true =>
      rw [setRule_selectors_replace cr c d hany]
      exact h
  | false =>
      rw [setRule_selectors_append cr c d hany, List.nodup_append]
      refine ⟨h, List.nodup_singleton _, ?_⟩
      intro a ha hb
      simp only [List.mem_singleton] at hb
      obtain ⟨r, hr, he⟩ := List.mem_map.mp ha
      have : cr.any (fun r => r.selector == c) = true :=
        List.any_eq_true.mpr ⟨r, hr, by simp [he, hb]⟩
      rw [this] at hany
      simp at hany

theorem setRule_mem (cr : List CSSRule) (c : String) (d : Declarations) (r : CSSRule)
    (h : r ∈ setRule cr c d) :
    r = CSSRule.mk c d ∨ (r ∈ cr ∧ r.selector ≠ c) := by
  unfold setRule at h
  by_cases hany : cr.any (fun r => r.selector == c) = true
  · rw [if_pos hany] at h
    obtain ⟨r0, hr0, he⟩ := List.mem_map.mp h
    by_cases hr0c : (r0.selector == c) = true
    · rw [if_pos hr0c] at he
      exact Or.inl he.symm
    · rw [if_neg hr0c] at he
      rw [← he]
      exact Or.inr ⟨hr0, by simpa using hr0c⟩
  · rw [if_neg hany] at h
    rcases List.mem_append.mp h with h1 | h1
    · refine Or.inr ⟨h1, ?_⟩
      intro hc
      exact hany (List.any_eq_true.mpr ⟨r, h1, by simp [hc]⟩)
    · simp only [List.mem_singleton] at h1
      exact Or.inl h1


theorem combineStep_bound (st : CombineState) (e : String × Declarations) :
    ((combineStep st e).sj.filter (fun p => p.2 == e.2)).length ≤ 1 := by
  by_cases h : (dupKeys st.sj e.2).length ≤ 1
  · rw [combineStep_small st e h]
    have hlen : (st.sj.filter (fun p => p.2 == e.2)).length = (dupKeys st.sj e.2).length := by
      unfold dupKeys
      rw [List.length_map]
    rw [hlen]
    exact h
  · rw [combineStep_big st e h]
    have hnil : (removeKeys st.sj (dupKeys st.sj e.2)).filter (fun p => p.2 == e.2) = [] := by
      rw [List.filter_eq_nil_iff]
      intro p hp hpe
      exact removeKeys_dupKeys_no_j st.sj e.2 p hp (by simpa using hpe)
    show ((removeKeys st.sj (dupKeys st.sj e.2)).filter (fun p => p.2 == e.2)).length ≤ 1
    rw [hnil]
    simp

theorem combineStep_P (st : CombineState) (e e' : String × Declarations)
    (hnd : (st.sj.map Prod.fst).Nodup)
    (hP : e' ∈ st.sj ∨ ∀ p ∈ st.sj, p.2 ≠ e'.2) :
    e' ∈ (combineStep st e).sj ∨ ∀ p ∈ (combineStep st e).sj, p.2 ≠ e'.2 := by
  by_cases h : (dupKeys st.sj e.2).length ≤ 1
  · rw [combineStep_small st e h]
    exact hP
  · rw [combineStep_big st e h]
    rcases hP with hmem | hno
    · by_cases hin : e'.1 ∈ dupKeys st.sj e.2
      · right
        obtain ⟨p, hp, hp1, hp2⟩ := exists_of_mem_dupKeys st.sj e.2 e'.1 hin
        have hpe : p = e' := nodup_keys_eq st.sj hnd p e' hp hmem hp1
        have he2 : e'.2 = e.2 := by rw [← hpe]; exact hp2
        intro q hq hq2
        exact removeKeys_dupKeys_no_j st.sj e.2 q hq (hq2.trans he2)
      · left
        exact (mem_removeKeys st.sj (dupKeys st.sj e.2) e').mpr ⟨hmem, hin⟩
    · right
      intro p hp
      exact hno p ((mem_removeKeys st.sj (dupKeys st.sj e.2) p).mp hp).1


theorem combineStep_inv (st : CombineState) (e : String × Declarations)
    (hinv : CombineInv st) (hP : e ∈ st.sj ∨ ∀ p ∈ st.sj, p.2 ≠ e.2) :
    CombineInv (combineStep st e) := by
  by_cases h : (dupKeys st.sj e.2).length ≤ 1
  · rw [combineStep_small st e h]
    exact hinv
  · rw [combineStep_big st e h]
    have hmem : e ∈ st.sj := by
      rcases hP with hm | hno
      · exact hm
      · exfalso
        apply h
        have hfil : st.sj.filter (fun p => p.2 == e.2) = [] :=
          List.filter_eq_nil_iff.mpr (fun p hp hpe => hno p hp (by simpa using hpe))
        unfold dupKeys
        rw [hfil]
        simp
    have hsmem : e.1 ∈ st.sj.map Prod.fst := List.mem_map.mpr ⟨e, hmem, rfl⟩
    have hcrmem : e.1 ∈ st.cr.map CSSRule.selector := hinv.sjSub e.1 hsmem
    have hfind_some : (lookupRule st.cr e.1).isSome := by
      unfold lookupRule
      rw [List.find?_isSome]
      obtain ⟨r, hr, he⟩ := List.mem_map.mp hcrmem
      exact ⟨r, hr, by simp [he]⟩
    obtain ⟨r_s, hfind⟩ := Option.isSome_iff_exists.mp hfind_some
    have hr_s_mem : r_s ∈ st.cr := List.mem_of_find?_eq_some hfind
    have hr_s_sel : r_s.selector = e.1 := by simpa using List.find?_some hfind
    have hdecls : ((lookupRule st.cr e.1).map CSSRule.declarations).getD [] =
        r_s.declarations := by
      rw [hfind]
      rfl
    rw [hdecls]
    have hsv_e : sval st.sj e.1 = some e.2 :=
      sval_of_mem st.sj e.1 e.2 hinv.sjNodup (by rw [Prod.mk.eta]; exact hmem)
    have hdich : canon r_s.declarations = e.2 ∨ ¬ consistent st.sj r_s := by
      by_cases hcons : consistent st.sj r_s
      · left
        unfold consistent at hcons
        rw [hr_s_sel, hsv_e] at hcons
        exact (Option.some.inj hcons).symm
      · exact Or.inr hcons
    have hs_in_D : e.1 ∈ dupKeys st.sj e.2 := dupKeys_of_mem st.sj e.2 e hmem rfl
    have htrans : ∀ r : CSSRule, r.selector ∉ dupKeys st.sj e.2 →
        (consistent (removeKeys st.sj (dupKeys st.sj e.2)) r ↔ consistent st.sj r) := by
      intro r hr
      unfold consistent
      rw [sval_removeKeys st.sj (dupKeys st.sj e.2) r.selector hr]
    have hnew_fresh : ∀ p ∈ removeKeys st.sj (dupKeys st.sj e.2),
        canon r_s.declarations ≠ p.2 := by
      rcases hdich with hc | hc
      · intro p hp
        rw [hc]
        intro h2
        exact removeKeys_dupKeys_no_j st.sj e.2 p hp h2.symm
      · intro p hp
        exact hinv.bFresh r_s hr_s_mem hc p
          ((mem_removeKeys st.sj (dupKeys st.sj e.2) p).mp hp).1
    have hnew_vs_B : ∀ r ∈ st.cr, r.selector ∉ dupKeys st.sj e.2 →
        ¬ consistent st.sj r →
        canon r_s.declarations ≠ canon r.declarations := by
      intro r hr hrD hrB
      rcases hdich with hc | hc
      · rw [hc]
        intro h2
        exact hinv.bFresh r hr hrB e hmem h2.symm
      · have hne : r_s.selector ≠ r.selector := by
          rw [hr_s_sel]
          intro hh
          exact hrD (hh ▸ hs_in_D)
        exact hinv.bDistinct r_s hr_s_mem r hr hne hc hrB
    refine ⟨?_, ?_, ?_, ?_, ?_⟩
    · exact setRule_nodup _ _ _
        (hinv.crNodup.sublist ((List.filter_sublist st.cr).map CSSRule.selector))
    · exact hinv.sjNodup.sublist ((List.filter_sublist st.sj).map Prod.fst)
    · intro k hk
      obtain ⟨p, hp, hpk⟩ := List.mem_map.mp hk
      obtain ⟨hpsj, hpD⟩ := (mem_removeKeys st.sj (dupKeys st.sj e.2) p).mp hp
      have h1 : p.1 ∈ st.cr.map CSSRule.selector :=
        hinv.sjSub p.1 (List.mem_map.mpr ⟨p, hpsj, rfl⟩)
      obtain ⟨r, hrcr, hrsel⟩ := List.mem_map.mp h1
      have hrrem : r ∈ removeRules st.cr (dupKeys st.sj e.2) :=
        (mem_removeRules st.cr (dupKeys st.sj e.2) r).mpr
          ⟨hrcr, by rw [hrsel]; exact hpD⟩
      rw [← hpk]
      exact setRule_selectors_sup _ _ _ p.1 (List.mem_map.mpr ⟨r, hrrem, hrsel⟩)
    · intro r hr hrB p' hp'
      rcases setRule_mem _ _ _ r hr with hnew | hold
      · rw [hnew]
        exact hnew_fresh p' hp'
      · obtain ⟨hr_rem, _⟩ := hold
        obtain ⟨hr_cr, hrD⟩ :=
          (mem_removeRules st.cr (dupKeys st.sj e.2) r).mp hr_rem
        have hrB2 : ¬ consistent st.sj r := fun hc => hrB ((htrans r hrD).mpr hc)
        exact hinv.bFresh r hr_cr hrB2 p'
          ((mem_removeKeys st.sj (dupKeys st.sj e.2) p').mp hp').1
    · intro r1 h1 r2 h2 hsel h1B h2B
      rcases setRule_mem _ _ _ r1 h1 with hn1 | hold1 <;>
        rcases setRule_mem _ _ _ r2 h2 with hn2 | hold2
      · exfalso
        apply hsel
        rw [hn1, hn2]
      · obtain ⟨h2rem, _⟩ := hold2
        obtain ⟨h2cr, h2D⟩ :=
          (mem_removeRules st.cr (dupKeys st.sj e.2) r2).mp h2rem
        have h2B2 : ¬ consistent st.sj r2 := fun hc => h2B ((htrans r2 h2D).mpr hc)
        rw [hn1]
        exact hnew_vs_B r2 h2cr h2D h2B2
      · obtain ⟨h1rem, _⟩ := hold1
        obtain ⟨h1cr, h1D⟩ :=
          (mem_removeRules st.cr (dupKeys st.sj e.2) r1).mp h1rem
        have h1B2 : ¬ consistent st.sj r1 := fun hc => h1B ((htrans r1 h1D).mpr hc)
        rw [hn2]
        exact (hnew_vs_B r1 h1cr h1D h1B2).symm
      · obtain ⟨h1rem, _⟩ := hold1
        obtain ⟨h2rem, _⟩ := hold2
        obtain ⟨h1cr, h1D⟩ :=
          (mem_removeRules st.cr (dupKeys st.sj e.2) r1).mp h1rem
        obtain ⟨h2cr, h2D⟩ :=
          (mem_removeRules st.cr (dupKeys st.sj e.2) r2).mp h2rem
        exact hinv.bDistinct r1 h1cr r2 h2cr hsel
          (fun hc => h1B ((htrans r1 h1D).mpr hc))
          (fun hc => h2B ((htrans r2 h2D).mpr hc))


theorem combine_fold (todo : List (String × Declarations)) (st : CombineState)
    (hinv : CombineInv st)
    (hP : ∀ e ∈ todo, e ∈ st.sj ∨ ∀ p ∈ st.sj, p.2 ≠ e.2) :
    CombineInv (todo.foldl combineStep st) ∧
    ∀ e ∈ todo,
      ((todo.foldl combineStep st).sj.filter (fun p => p.2 == e.2)).length ≤ 1 := by
  induction todo generalizing st with
  | nil => exact ⟨hinv, by simp⟩
  | cons e rest ih =>
      simp only [List.foldl_cons]
      have hinv1 := combineStep_inv st e hinv (hP e (List.mem_cons_self e rest))
      have hP1 : ∀ e' ∈ rest,
          e' ∈ (combineStep st e).sj ∨ ∀ p ∈ (combineStep st e).sj, p.2 ≠ e'.2 :=
        fun e' he' => combineStep_P st e e' hinv.sjNodup (hP e' (List.mem_cons_of_mem e he'))
      obtain ⟨hinvF, hboundF⟩ := ih (combineStep st e) hinv1 hP1
      refine ⟨hinvF, ?_⟩
      intro e' he'
      rcases List.mem_cons.mp he' with he0 | hr
      · subst he0
        have hstep := combineStep_bound st e'
        have hsub :
            ((rest.foldl combineStep (combineStep st e')).sj.filter
              (fun p => p.2 == e'.2)).Sublist
              ((combineStep st e').sj.filter (fun p => p.2 == e'.2)) :=
          (foldl_sj_sublist rest (combineStep st e')).filter _
        exact le_trans hsub.length_le hstep
      · exact hboundF e' hr

theorem nodup_map_transfer {α β γ : Type} (l : List α) (f : α → β) (g : α → γ)
    (hf : (l.map f).Nodup)
    (h : ∀ a ∈ l, ∀ b ∈ l, f a ≠ f b → g a ≠ g b) :
    (l.map g).Nodup := by
  induction l with
  | nil => simp
  | cons a t ih =>
      simp only [List.map_cons, List.nodup_cons] at hf ⊢
      refine ⟨?_, ih hf.2
        (fun x hx y hy => h x (List.mem_cons_of_mem a hx) y (List.mem_cons_of_mem a hy))⟩
      intro hmem
      obtain ⟨b, hb, he⟩ := List.mem_map.mp hmem
      have hfa : f a ≠ f b := by
        intro hh
        exact hf.1 (List.mem_map.mpr ⟨b, hb, hh.symm⟩)
      exact (h a (List.mem_cons_self a t) b (List.mem_cons_of_mem a hb) hfa) he.symm

theorem combine_canons_nodup (x : List CSSRule)
    (hx : (x.map CSSRule.selector).Nodup) :
    ((combine_rules_selectors x).map (fun r => canon r.declarations)).Nodup := by
  have hkeys : (x.map (fun r => (r.selector, canon r.declarations))).map Prod.fst =
      x.map CSSRule.selector := by
    rw [List.map_map]
    rfl
  have hcons_all : ∀ r ∈ x,
      consistent (x.map (fun r => (r.selector, canon r.declarations))) r := by
    intro r hr
    unfold consistent
    exact sval_of_mem _ r.selector (canon r.declarations)
      (by rw [hkeys]; exact hx) (List.mem_map.mpr ⟨r, hr, rfl⟩)
  have hinv0 : CombineInv (CombineState.mk
      (x.map (fun r => (r.selector, canon r.declarations))) x) := by
    refine ⟨hx, by rw [hkeys]; exact hx, ?_, ?_, ?_⟩
    · intro k hk
      rw [hkeys] at hk
      exact hk
    · intro r hr hc
      exact absurd (hcons_all r hr) hc
    · intro r1 h1 r2 h2 hne hc1 hc2
      exact absurd (hcons_all r1 h1) hc1
  obtain ⟨hinvF, hbound⟩ := combine_fold
    (x.map (fun r => (r.selector, canon r.declarations)))
    (CombineState.mk (x.map (fun r => (r.selector, canon r.declarations))) x)
    hinv0 (fun e he => Or.inl he)
  have hcrF : combine_rules_selectors x =
      ((x.map (fun r => (r.selector, canon r.declarations))).foldl combineStep
        (CombineState.mk (x.map (fun r => (r.selector, canon r.declarations))) x)).cr := rfl
  rw [hcrF]
  have hsjF :
      (((x.map (fun r => (r.selector, canon r.declarations))).foldl combineStep
        (CombineState.mk (x.map (fun r => (r.selector, canon r.declarations))) x)).sj).Sublist
      (x.map (fun r => (r.selector, canon r.declarations))) :=
    foldl_sj_sublist _ _
  apply nodup_map_transfer _ CSSRule.selector _ hinvF.crNodup
  intro r1 h1 r2 h2 hne
  by_cases hc1 : consistent (((x.map (fun r => (r.selector, canon r.declarations))).foldl
      combineStep (CombineState.mk (x.map (fun r => (r.selector, canon r.declarations))) x)).sj) r1 <;>
    by_cases hc2 : consistent (((x.map (fun r => (r.selector, canon r.declarations))).foldl
      combineStep (CombineState.mk (x.map (fun r => (r.selector, canon r.declarations))) x)).sj) r2
  · intro heq
    have hm1 := sval_mem _ _ _ hc1
    have hm2 := sval_mem _ _ _ hc2
    have hm1S := hsjF.subset hm1
    have hb := hbound (r1.selector, canon r1.declarations) hm1S
    have hf1 : (r1.selector, canon r1.declarations) ∈
        (((x.map (fun r => (r.selector, canon r.declarations))).foldl combineStep
          (CombineState.mk (x.map (fun r => (r.selector, canon r.declarations))) x)).sj.filter
          (fun p => p.2 == canon r1.declarations)) :=
      List.mem_filter.mpr ⟨hm1, by simp⟩
    have hf2 : (r2.selector, canon r2.declarations) ∈
        (((x.map (fun r => (r.selector, canon r.declarations))).foldl combineStep
          (CombineState.mk (x.map (fun r => (r.selector, canon r.declarations))) x)).sj.filter
          (fun p => p.2 == canon r1.declarations)) :=
      List.mem_filter.mpr ⟨hm2, by simp [heq]⟩
    have hne2 : (r1.selector, canon r1.declarations) ≠ (r2.selector, canon r2.declarations) :=
      fun hh => hne (congrArg Prod.fst hh)
    have h2le := two_le_length_of_two_mem _ _ _ hf1 hf2 hne2
    have hb2 : ((((x.map (fun r => (r.selector, canon r.declarations))).foldl combineStep
        (CombineState.mk (x.map (fun r => (r.selector, canon r.declarations))) x)).sj.filter
        (fun p => p.2 == canon r1.declarations)).length) ≤ 1 := hb
    omega
  · intro heq
    have hm1 := sval_mem _ _ _ hc1
    exact (hinvF.bFresh r2 h2 hc2 _ hm1) heq.symm
  · intro heq
    have hm2 := sval_mem _ _ _ hc2
    exact (hinvF.bFresh r1 h1 hc1 _ hm2) heq
  · exact hinvF.bDistinct r1 h1 r2 h2 hne hc1 hc2

theorem combine_of_canons_nodup (y : List CSSRule)
    (hy : (y.map (fun r => canon r.declarations)).Nodup) :
    combine_rules_selectors y = y := by
  have hid : ∀ (todo : List (String × Declarations)) (st : CombineState),
      (st.sj.map Prod.snd).Nodup → todo.foldl combineStep st = st := by
    intro todo
    induction todo with
    | nil => intro st _; rfl
    | cons e rest ih =>
        intro st hnd
        rw [List.foldl_cons]
        have hsmall : (dupKeys st.sj e.2).length ≤ 1 := by
          unfold dupKeys
          rw [List.length_map]
          exact filter_snd_nodup_le_one st.sj e.2 hnd
        rw [combineStep_small st e hsmall]
        exact ih st hnd
  have hsnd : ((y.map (fun r => (r.selector, canon r.declarations))).map Prod.snd).Nodup := by
    rw [List.map_map]
    exact hy
  show ((y.map (fun r => (r.selector, canon r.declarations))).foldl combineStep
      (CombineState.mk (y.map (fun r => (r.selector, canon r.declarations))) y)).cr = y
  rw [hid _ _ hsnd]


/-- C3 amended: idempotence of optimized output for processors with no
attached stores.  `get_css` mutates the working set, and with `optimize`
set the second call runs the combine pass on the already-combined
working set; since the combined working set has pairwise-distinct
canonical encodings, that second pass is the identity and both calls
return the identical string.  (With attached stores the claim fails:
each call re-pulls every store's rules, whose selectors were combined
away by the previous call.) -/
theorem c3_idempotent_no_stores (p : Processor) (o : CssOptions)
    (hs : p.stores = []) (ho : o.optimize = true)
    (hn : (p.css_rules.map CSSRule.selector).Nodup) :
    (get_css (get_css p o).2 o).1 = (get_css p o).1 := by
  have hcc := combine_of_canons_nodup (combine_rules_selectors p.css_rules)
    (combine_canons_nodup p.css_rules hn)
  simp [get_css, hs, ho, hcc]

/-- Witness for C3 amended at a concrete input. -/
theorem c3_idempotent_no_stores_witness :
    (get_css (get_css (Processor.mk [] [CSSRule.mk ".a" [("color", "red")],
        CSSRule.mk ".b" [("color", "red")]]) (CssOptions.mk true false)).2
      (CssOptions.mk true false)).1 =
    (get_css (Processor.mk [] [CSSRule.mk ".a" [("color", "red")],
        CSSRule.mk ".b" [("color", "red")]]) (CssOptions.mk true false)).1 :=
  c3_idempotent_no_stores
    (Processor.mk [] [CSSRule.mk ".a" [("color", "red")],
      CSSRule.mk ".b" [("color", "red")]])
    (CssOptions.mk true false) rfl rfl (by decide)

end StyleEngine
